import Mathlib

/-
  Verification of the Evidence Retrieval and Assembly Engine of the
  finance-lab extraction pipeline: a shallow embedding of the page-window
  selection, chunking, vector-index, merge/deduplication and conflict
  detection logic of the repository, together with theorems settling the
  specified properties.

  Python floats are modelled as rationals; Python dicts as association
  lists; fallible calls as Option-valued functions; unbounded while loops
  as fueled recursions whose fuel is proved (or argued in place) to be
  large enough that it never alters the semantics.
-/

namespace FinanceLab

/-- A search hit as returned by `PDFIndexer.query` (src/pdf_indexer.py) and
consumed by the page-selection logic.  Only the keys `page_number` and
`distance` are read by the selectors; `text` is carried along but never
inspected.  Python float distances are modelled as rationals. -/
structure Hit where
  page_number : Int
  distance : ℚ
  text : String
deriving DecidableEq, Repr

namespace ExtractionLogic

/-- Membership test of a page in the dict
`results_by_page = \x7bres['page_number']: res for res in results\x7d`
(src/extraction_logic.py line 67 and src/cli.py line 192).  The dict is
only ever used for membership tests and for fetching an entry whose
`page_number` equals the key, so membership in the key set is all the
model needs. -/
def containsPage (results : List Hit) (p : Int) : Bool :=
  results.any (fun r => r.page_number == p)

/-- The forward expansion loop of `select_consecutive_pages`
(src/extraction_logic.py lines 81-83):
`while current_page in results_by_page and len(pages_to_extract) < max_pages`.
Every dict appended to `pages_to_extract` is later read only at its
`page_number` key, so the accumulator is modelled as the list of page
numbers.  The loop is fueled; each iteration moves `current_page` up by
one and the loop runs only while `current_page` is a key of the dict,
which has at most `results.length` keys, so any fuel of at least
`results.length + 1` yields the exact loop semantics
(`fwdLoop_fuel_irrelevant` below). -/
def fwdLoop (results : List Hit) (maxPages : Nat) :
    Nat → List Int → Int → List Int
  | 0, acc, _ => acc
  | fuel + 1, acc, cur =>
    if containsPage results cur ∧ acc.length < maxPages then
      fwdLoop results maxPages fuel (acc ++ [cur]) (cur + 1)
    else acc

/-- The backward expansion loop of `select_consecutive_pages`
(src/extraction_logic.py lines 87-89):
`while current_page > 0 and current_page in results_by_page and len(pages_to_extract) < max_pages`,
modelled like `fwdLoop`. -/
def bwdLoop (results : List Hit) (maxPages : Nat) :
    Nat → List Int → Int → List Int
  | 0, acc, _ => acc
  | fuel + 1, acc, cur =>
    if 0 < cur ∧ containsPage results cur ∧ acc.length < maxPages then
      bwdLoop results maxPages fuel (acc ++ [cur]) (cur - 1)
    else acc

/-- Duplicate removal keeping the first occurrence of each page number
(src/extraction_logic.py lines 92-97; the set `seen_page_numbers` is
modelled as the list of page numbers seen so far). -/
def dedupPagesAux : List Int → List Int → List Int
  | [], _ => []
  | p :: rest, seen =>
    if p ∈ seen then dedupPagesAux rest seen
    else p :: dedupPagesAux rest (p :: seen)

/-- `unique_pages` construction of `select_consecutive_pages`. -/
def dedupPages (ps : List Int) : List Int :=
  dedupPagesAux ps []

/-- `unique_pages.sort(key=lambda p: p['page_number'])`
(src/extraction_logic.py line 100); after deduplication the keys are
distinct, so any correct ascending sort models Python's stable sort. -/
def sortPages (ps : List Int) : List Int :=
  List.insertionSort (· ≤ ·) ps

/-- Steps shared by the two page selectors after the anchor/second-hit
seeding: the unconditional inclusion of the page right after the top hit
(both branches of the `if current_page in results_by_page` on lines 73-78
of src/extraction_logic.py append an entry whose `page_number` is
`current_page`, either the real hit or the synthetic
`\x7b'page_number': current_page, 'distance': float('inf'), 'text': ''\x7d`),
the forward and backward expansion loops, deduplication and sorting. -/
def selectRest (results : List Hit) (maxPages : Nat) (top : Hit)
    (pages : List Int) : List Int :=
  let cur := top.page_number + 1
  let pages3 := if pages.length < maxPages then pages ++ [cur] else pages
  let pages4 := fwdLoop results maxPages (results.length + 1) pages3 (cur + 1)
  let pages5 := bwdLoop results maxPages (results.length + 1) pages4
    (top.page_number - 1)
  sortPages (dedupPages pages5)

/-- `select_consecutive_pages(results, max_pages=4)` of
src/extraction_logic.py lines 41-102, returning the final
`[p['page_number'] for p in unique_pages]`.  The second-ranked hit is
added when `len(results) > 1 and len(pages_to_extract) < max_pages`, its
distance is within the 5 percent threshold
(`second['distance'] <= top['distance'] * 1.05`) and its page differs from
the top page. -/
def select_consecutive_pages (results : List Hit) (maxPages : Nat) :
    List Int :=
  match results with
  | [] => []
  | [top] => selectRest results maxPages top [top.page_number]
  | top :: second :: _ =>
    let pages1 : List Int := [top.page_number]
    let pages2 :=
      if pages1.length < maxPages ∧
          second.distance ≤ top.distance * (105 / 100 : ℚ) ∧
          second.page_number ≠ top.page_number then
        pages1 ++ [second.page_number]
      else pages1
    selectRest results maxPages top pages2

end ExtractionLogic

namespace Cli

open ExtractionLogic

/-- The forward expansion loop of the inline page selection in
`extract_command` (src/cli.py lines 204-206):
`while current_page in results_by_page`, with no cap on the number of
selected pages.  Fueled like `ExtractionLogic.fwdLoop`; fuel
`results.length + 1` is enough because the loop only runs while the
strictly increasing `current_page` is a key of `results_by_page`
(`cliFwdLoop_fuel_irrelevant` below). -/
def cliFwdLoop (results : List Hit) : Nat → List Int → Int → List Int
  | 0, acc, _ => acc
  | fuel + 1, acc, cur =>
    if containsPage results cur then
      cliFwdLoop results fuel (acc ++ [cur]) (cur + 1)
    else acc

/-- The backward expansion loop of the inline page selection in
`extract_command` (src/cli.py lines 210-212):
`while current_page > 0 and current_page in results_by_page`. -/
def cliBwdLoop (results : List Hit) : Nat → List Int → Int → List Int
  | 0, acc, _ => acc
  | fuel + 1, acc, cur =>
    if 0 < cur ∧ containsPage results cur then
      cliBwdLoop results fuel (acc ++ [cur]) (cur - 1)
    else acc

/-- The steps of the inline CLI selection after seeding (src/cli.py lines
196-226): unconditional inclusion of the page after the top hit (the
synthetic entry `\x7b'page_number': current_page\x7d` on line 201 carries only
a page number), forward and backward expansion, duplicate removal keeping
the first occurrence, ascending sort, and projection to page numbers. -/
def cliSelectRest (results : List Hit) (top : Hit) (pages : List Int) :
    List Int :=
  let cur := top.page_number + 1
  let pages3 := pages ++ [cur]
  let pages4 := cliFwdLoop results (results.length + 1) pages3 (cur + 1)
  let pages5 := cliBwdLoop results (results.length + 1) pages4
    (top.page_number - 1)
  sortPages (dedupPages pages5)

/-- The inline page-selection logic of `extract_command` (src/cli.py lines
175-226).  When `results` is empty the command reports that no relevant
pages were found and selects nothing (lines 271-272), modelled as `[]`.
The second-ranked hit is added when `len(results) > 1`, its distance is
within the 5 percent threshold and its page differs from the top page
(lines 185-190) - with no cap check, unlike `select_consecutive_pages`. -/
def extract_command_pages (results : List Hit) : List Int :=
  match results with
  | [] => []
  | [top] => cliSelectRest results top [top.page_number]
  | top :: second :: _ =>
    let pages1 : List Int := [top.page_number]
    let pages2 :=
      if second.distance ≤ top.distance * (105 / 100 : ℚ) ∧
          second.page_number ≠ top.page_number then
        pages1 ++ [second.page_number]
      else pages1
    cliSelectRest results top pages2

end Cli

namespace PDFIndexer

/-- Python index normalization for list slicing `l[s:e]`: a negative bound
counts from the end (clamped at 0), a nonnegative bound is clamped at the
length. -/
def pyIndex (n : Nat) (i : Int) : Nat :=
  if i < 0 then (Int.toNat (n + i)) else min i.toNat n

/-- Python list slice `l[s:e]`. -/
def pySlice {α : Type} (l : List α) (s e : Int) : List α :=
  (l.take (pyIndex l.length e)).drop (pyIndex l.length s)

/-- One run of the `while start_index < len(tokens)` loop of
`PDFIndexer._chunk_text` (src/pdf_indexer.py lines 88-96), operating on
the encoded token sequence (the external tiktoken encode/decode pair is
out of scope; the produced chunks are modelled as token slices
`tokens[start_index:start_index + chunk_size]`).  The loop advances
`start_index` by the Python int `chunk_size - chunk_overlap`, which is
zero or negative when `chunk_overlap >= chunk_size`, so the recursion is
fueled: `some chunks` means the loop finished within `fuel` iterations,
`none` that it was still running. -/
def chunkTextLoop (size overlap : Nat) (tokens : List Nat) :
    Nat → Int → Option (List (List Nat))
  | 0, start =>
    if start < (tokens.length : Int) then none else some []
  | fuel + 1, start =>
    if start < (tokens.length : Int) then
      let tchunk := pySlice tokens start (start + (size : Int))
      match chunkTextLoop size overlap tokens fuel
        (start + ((size : Int) - (overlap : Int))) with
      | some rest => some (tchunk :: rest)
      | none => none
    else some []

/-- `PDFIndexer._chunk_text` on a pre-encoded nonempty token list, started
at `start_index = 0` with the given fuel.  (For empty `text` the function
returns `[]` before the loop, line 83-84.) -/
def chunkTextTokens (size overlap : Nat) (tokens : List Nat) (fuel : Nat) :
    Option (List (List Nat)) :=
  chunkTextLoop size overlap tokens fuel 0

/-- An embedding vector (`float[D]` modelled over rationals). -/
abbrev Vec : Type := List ℚ

/-- A chunk-metadata record as built by
`PDFIndexer.extract_text_from_pdf` (src/pdf_indexer.py lines 134-141). -/
structure ChunkMeta where
  document_id : String
  pdf_path : String
  page_number : Int
  chunk_number : Int
  text : String
deriving DecidableEq, Repr

/-- The in-memory and on-disk state of one `PDFIndexer`: the FAISS vector
store (`self.index`, a list of row vectors in insertion order), the chunk
metadata list (`self.metadata`), and the persisted pair of files
(`index_path.index` / `index_path.metadata`), `none` when absent. -/
structure IndexState where
  vectors : List Vec
  metadata : List ChunkMeta
  disk : Option (List Vec × List ChunkMeta)
deriving DecidableEq

/-- `PDFIndexer.reset_index` (src/pdf_indexer.py lines 271-285): clears the
in-memory index and metadata and removes the persisted files. -/
def resetIndex (_st : IndexState) : IndexState :=
  { vectors := [], metadata := [], disk := none }

/-- `PDFIndexer._save_index` (src/pdf_indexer.py lines 70-79). -/
def saveIndex (st : IndexState) : IndexState :=
  { st with disk := some (st.vectors, st.metadata) }

/-- The batch slicing
`for i in range(0, len(chunks_data), batch_size): chunks_data[i:i+batch_size]`
(src/pdf_indexer.py lines 195-196), fueled by the list length, which
suffices for any positive batch size (`EMBEDDING_BATCH_SIZE` is 100;
Python `range` would reject a zero step). -/
def chunkBatchesAux {α : Type} (bs : Nat) : Nat → List α → List (List α)
  | 0, _ => []
  | _, [] => []
  | fuel + 1, l => l.take bs :: chunkBatchesAux bs fuel (l.drop bs)

/-- The list of embedding batches of `chunks_data`. -/
def chunkBatches {α : Type} (bs : Nat) (l : List α) : List (List α) :=
  chunkBatchesAux bs l.length l

/-- The embedding loop of `PDFIndexer.index_pdf` (src/pdf_indexer.py lines
193-213): per batch, call the external embedding API on the batch texts
(modelled as the Option-valued `embedBatch`; `none` is a raised
exception), extend `embeddings_list` and `self.metadata` on success, and
on failure abort, returning the metadata as extended so far.  Returns
`(some embeddings, metadata)` when every batch succeeded and
`(none, metadata)` when a batch failed. -/
def indexBatchLoop (embedBatch : List String → Option (List Vec)) :
    List (List ChunkMeta) → List Vec → List ChunkMeta →
      Option (List Vec) × List ChunkMeta
  | [], embs, meta => (some embs, meta)
  | b :: rest, embs, meta =>
    match embedBatch (b.map (fun c => c.text)) with
    | some bembs => indexBatchLoop embedBatch rest (embs ++ bembs) (meta ++ b)
    | none => (none, meta)

/-- `PDFIndexer.index_pdf` (src/pdf_indexer.py lines 173-229), parametrised
by the extracted `chunks_data` (page text extraction via the external
PyMuPDF is out of scope) and by the external batched embedder.  Returns
the new indexer state together with the returned chunk count (`0` on
abort).  Steps: clear a nonempty index (lines 185-187), run the batched
embedding loop, abort returning 0 on a failed batch (lines 210-213) or
when no embeddings were produced (lines 216-218), otherwise add all
embeddings to the FAISS index and save to disk. -/
def indexPdf (st : IndexState) (chunksData : List ChunkMeta)
    (embedBatch : List String → Option (List Vec)) (bs : Nat) :
    IndexState × Nat :=
  let st1 := if 0 < st.vectors.length then resetIndex st else st
  match indexBatchLoop embedBatch (chunkBatches bs chunksData) []
    st1.metadata with
  | (none, meta) => ({ st1 with metadata := meta }, 0)
  | (some embs, meta) =>
    if embs.isEmpty then ({ st1 with metadata := meta }, 0)
    else
      let newVecs := st1.vectors ++ embs
      (saveIndex { vectors := newVecs, metadata := meta, disk := st1.disk },
        chunksData.length)

/-- Squared L2 distance between a query vector and a stored row, the
distance FAISS's `IndexFlatL2` reports (spec section 4.2; lower is
better). -/
def l2sq (u v : Vec) : ℚ :=
  ((List.zip u v).map (fun p => (p.1 - p.2) * (p.1 - p.2))).sum

/-- Comparison used to rank scored rows `(row id, distance)`: ascending
distance, ties broken by the smaller (earlier inserted) row id. -/
def scoreLe (a b : Nat × ℚ) : Prop :=
  a.2 < b.2 ∨ (a.2 = b.2 ∧ a.1 ≤ b.1)

instance : DecidableRel scoreLe := fun a b =>
  inferInstanceAs (Decidable (a.2 < b.2 ∨ (a.2 = b.2 ∧ a.1 ≤ b.1)))

/-- Modelled from the spec: `faiss.IndexFlatL2.search` is external library
code, not part of this repository; per spec section 4.2 it is an
exhaustive brute-force L2 scan returning the `k` nearest rows sorted by
ascending distance, ties broken by original insertion order (stable).
The result pairs each returned row id with its distance. -/
def faissSearch (vectors : List Vec) (q : Vec) (k : Nat) : List (Nat × ℚ) :=
  let scored := vectors.enum.map (fun p => (p.1, l2sq q p.2))
  (List.insertionSort scoreLe scored).take k

/-- One formatted query result of `PDFIndexer.query`
(src/pdf_indexer.py lines 259-266). -/
structure QueryResult where
  rank : Nat
  document_id : String
  pdf_path : String
  page_number : Int
  text : String
  distance : ℚ
deriving DecidableEq, Repr

/-- The result-formatting loop of `PDFIndexer.query` (src/pdf_indexer.py
lines 255-267): `for i, (distance, idx) in enumerate(...)`, keeping only
hits whose row id is a valid metadata index (`idx >= 0` always holds for
the modelled exact search) and assigning `rank = i + 1` from the
enumeration counter. -/
def buildResults (metadata : List ChunkMeta) :
    Nat → List (Nat × ℚ) → List QueryResult
  | _, [] => []
  | i, (idx, dist) :: rest =>
    match metadata.get? idx with
    | some m =>
      { rank := i + 1, document_id := m.document_id, pdf_path := m.pdf_path,
        page_number := m.page_number, text := m.text, distance := dist } ::
        buildResults metadata (i + 1) rest
    | none => buildResults metadata (i + 1) rest

/-- `PDFIndexer.query` (src/pdf_indexer.py lines 231-269), parametrised by
the already-embedded query vector (the embedding call is external): empty
index returns `[]` (lines 243-245); otherwise search with
`min(top_k, ntotal)` and format the results. -/
def query (metadata : List ChunkMeta) (vectors : List Vec) (qv : Vec)
    (top_k : Nat) : List QueryResult :=
  if vectors.length = 0 then []
  else
    buildResults metadata 0 (faissSearch vectors qv (min top_k vectors.length))

end PDFIndexer

namespace ExtractionLogic

/-- The per-page artifact collection loop of `extract_from_pdf`
(src/extraction_logic.py lines 170-181): for every selected page number,
if `page_num > 0 and page_num <= indexer.get_page_count(pdf_path)` the
page image and text are extracted and appended when truthy, otherwise the
page is skipped with no error.  Modelled from the spec for the external
document renderer (spec section 6): `get_page_count` and
`get_text_for_page` are called on the indexer but are not defined in the
sources, so the page count is a parameter and `get_text_for_page` is an
opaque `str|null` function; `extract_page_as_image`
(src/pdf_indexer.py lines 287-329) returns a path or `""` on failure.
Returns `(saved_image_paths, page_texts)`. -/
def collectArtifacts (pageCount : Int) (render : Int → String)
    (getText : Int → Option String) : List Int → List String × List String
  | [] => ([], [])
  | p :: rest =>
    let prev := collectArtifacts pageCount render getText rest
    if 0 < p ∧ p ≤ pageCount then
      let imgs := if render p = "" then prev.1 else render p :: prev.1
      let txts :=
        match getText p with
        | some t => if t = "" then prev.2 else t :: prev.2
        | none => prev.2
      (imgs, txts)
    else prev

end ExtractionLogic

namespace Merge

/-- An `Optional[Union[float, str]]` investor amount (src/models.py,
`Investor`): a number (Python float modelled as a rational), a string, or
null. -/
inductive AmountVal where
  | numV (q : ℚ)
  | strV (s : String)
  | nullV
deriving DecidableEq, Repr

/-- An investor entry (src/models.py lines 35-39). -/
structure Investor where
  name : String
  amount_in_cash : AmountVal
  amount_in_percentage : AmountVal
  level : Option Int
deriving DecidableEq, Repr

/-- Rounding of `num/den` (nonnegative) to an integer count of
thousandths, used to model the fixed three-decimal formatting. -/
def scaled3 (num den : Nat) : Nat :=
  (num * 2000 + den) / (2 * den)

/-- Left-pads the fractional thousandths to three digits. -/
def pad3 (n : Nat) : String :=
  if n < 10 then "00" ++ toString n
  else if n < 100 then "0" ++ toString n
  else toString n

/-- Python `f"\x7bamount:.3f\x7d"` (src/extraction_logic.py line 292 and
src/cli.py line 99), modelled as rounding the exact rational to three
decimal places and rendering with exactly three fractional digits.  (The
binary-float round-half-even artifacts of the CPython implementation are
idealised away; no claim depends on them.) -/
def format3dec (q : ℚ) : String :=
  if q < 0 then
    "-" ++ (toString (scaled3 (-q.num).toNat q.den / 1000) ++ "." ++
      pad3 (scaled3 (-q.num).toNat q.den % 1000))
  else
    toString (scaled3 q.num.toNat q.den / 1000) ++ "." ++
      pad3 (scaled3 q.num.toNat q.den % 1000)

/-- Fractional decimal digits of `rem/den` by long division, up to the
given number of digits. -/
def fracDigits : Nat → Nat → Nat → String
  | 0, _, _ => ""
  | fuel + 1, rem, den =>
    if rem = 0 then ""
    else toString (rem * 10 / den) ++ fracDigits fuel (rem * 10 % den) den

/-- Decimal rendering of the nonnegative rational `num/den`. -/
def pyFloatStrNat (num den : Nat) : String :=
  let frac := fracDigits 17 (num % den) den
  toString (num / den) ++ "." ++ (if frac = "" then "0" else frac)

/-- Python `str(float)` (src/extraction_logic.py line 294 and src/cli.py
line 104), modelled as the exact decimal expansion of the rational (up to
17 fractional digits, always exact for the decimal amounts in scope). -/
def pyFloatStr (q : ℚ) : String :=
  if q < 0 then "-" ++ pyFloatStrNat (-q.num).toNat q.den
  else pyFloatStrNat q.num.toNat q.den

/-- The amount post-formatting applied to one investor entry
(src/extraction_logic.py lines 290-294; the same logic appears in
src/cli.py lines 96-104): a numeric `amount_in_cash` becomes the fixed
three-decimal string, a numeric `amount_in_percentage` becomes its `str`
form; string or null amounts are left untouched (the `isinstance`
guards). -/
def formatInvestor (inv : Investor) : Investor :=
  let inv1 :=
    match inv.amount_in_cash with
    | AmountVal.numV q => { inv with amount_in_cash := AmountVal.strV (format3dec q) }
    | _ => inv
  match inv1.amount_in_percentage with
  | AmountVal.numV q =>
    { inv1 with amount_in_percentage := AmountVal.strV (pyFloatStr q) }
  | _ => inv1

/-- The investor deduplication loop of `merge_and_finalize_outputs`
(src/extraction_logic.py lines 284-297): walk the concatenated entries
with a `seen_entries` set of `(investor.name, investor.level)` pairs -
the raw name and level, no normalisation - keeping an entry when its name
is truthy and its key unseen, formatting its amounts on the way.
(`Investor.model_validate` on an already well-typed entry succeeds and is
omitted.) -/
def mergeInvestorsAux : List Investor → List (String × Option Int) →
    List Investor
  | [], _ => []
  | inv :: rest, seen =>
    if inv.name ≠ "" ∧ (inv.name, inv.level) ∉ seen then
      formatInvestor inv :: mergeInvestorsAux rest ((inv.name, inv.level) :: seen)
    else mergeInvestorsAux rest seen

/-- The deduplicated, formatted investor list stored into
`doc_entry.investors` for one merged document. -/
def mergeInvestors (items : List Investor) : List Investor :=
  mergeInvestorsAux items []

/-- One temporary extraction-result file as read by
`merge_and_finalize_outputs` for a scalar field (src/extraction_logic.py
lines 256-266): its `source_document`, its `doc_id` and the value stored
under the extraction field. -/
structure TempScalarResult where
  source_document : Option String
  doc_id : Option String
  fieldValue : Option String
deriving DecidableEq, Repr

/-- The field names of `ImportantDates` (src/models.py lines 41-50). -/
def importantDatesFields : List String :=
  ["record_date", "sub_start_date", "sub_end_date", "inc_rights_date",
    "ex_rights_date", "rights_start_date", "rights_end_date",
    "general_meeting_date", "ipo_trading_date"]

/-- One merged per-document entry of the final output for runs whose
extraction fields are scalars: `issue_id`, `id`, the `important_dates`
sub-dict (an association list of the non-null date fields, matching the
`exclude_none` JSON dump) and any extra top-level fields. -/
structure DocEntryM where
  issue_id : String
  id : Option String
  important_dates : List (String × String)
  extra : List (String × String)
deriving DecidableEq, Repr

/-- Sets key `k` to `v` in an association list (replace the first binding
or append), modelling a Python dict/attribute assignment. -/
def setAssoc : List (String × String) → String → String →
    List (String × String)
  | [], k, v => [(k, v)]
  | (k', v') :: rest, k, v =>
    if k' = k then (k, v) :: rest else (k', v') :: setAssoc rest k v

/-- Applies `f` to the entry bound to `k` in the document map. -/
def updateAssoc (l : List (String × DocEntryM)) (k : String)
    (f : DocEntryM → DocEntryM) : List (String × DocEntryM) :=
  l.map (fun p => if p.1 = k then (p.1, f p.2) else p)

/-- Processing of one temporary result file by
`merge_and_finalize_outputs` for a scalar extraction field
(src/extraction_logic.py lines 254-326): skip when `source_document` is
missing or falsy or the field value is `None`; create the document entry
with `DocumentEntry(issue_id=issue_id, id=doc_id)` when absent (Python
dicts keep insertion order, so new documents are appended); fill a falsy
`id` from a truthy `doc_id`; then, since a scalar date field is neither
`"investors"` nor a `DocumentEntry` field, store it into the
`important_dates` sub-model when it is one of its fields (lines 319-323)
and as an extra field otherwise (lines 325-326). -/
def mergeScalarStep (issue_id field : String)
    (acc : List (String × DocEntryM)) (t : TempScalarResult) :
    List (String × DocEntryM) :=
  match t.source_document with
  | none => acc
  | some dn =>
    if dn = "" then acc
    else
      match t.fieldValue with
      | none => acc
      | some v =>
        let acc1 :=
          if (acc.lookup dn).isNone then
            acc ++ [(dn, DocEntryM.mk issue_id t.doc_id [] [])]
          else acc
        let acc2 := updateAssoc acc1 dn (fun e =>
          if (e.id = none ∨ e.id = some "") ∧
              ¬(t.doc_id = none ∨ t.doc_id = some "") then
            { e with id := t.doc_id }
          else e)
        updateAssoc acc2 dn (fun e =>
          if field ∈ importantDatesFields then
            { e with important_dates := setAssoc e.important_dates field v }
          else
            { e with extra := setAssoc e.extra field v })

/-- `merge_and_finalize_outputs` restricted to one scalar extraction
field: process the temporary files in order against the initially loaded
data (`\x7b\x7d` for a fresh output file). -/
def mergeScalarField (issue_id field : String)
    (temps : List TempScalarResult)
    (initial : List (String × DocEntryM)) : List (String × DocEntryM) :=
  temps.foldl (mergeScalarStep issue_id field) initial

end Merge

namespace Evaluator

open Merge

/-- Python `str.strip()` as used for the registry keys of
`detect_conflicts` (src/tests/evaluator.py line 169), implemented
executably over the character list (ASCII whitespace; `String.trim` is
not kernel-computable). -/
def isPyWS (c : Char) : Bool :=
  c = ' ' ∨ c = '\t' ∨ c = '\n' ∨ c = '\r' ∨ c = '\x0b' ∨ c = '\x0c'

/-- Strips leading and trailing whitespace. -/
def pyStrip (s : String) : String :=
  String.mk (((s.toList.dropWhile isPyWS).reverse.dropWhile isPyWS).reverse)

/-- The observations `Evaluator.detect_conflicts` (src/tests/evaluator.py
lines 146-214) registers for one important-dates field of the merged
output: one `(doc_name, value)` pair per document whose
`important_dates` dict binds the field to a non-empty value (`None`
values never appear in the dumped JSON, and empty strings are skipped on
line 162-163). -/
def fieldObservations (docs : List (String × DocEntryM)) (field : String) :
    List (String × String) :=
  docs.filterMap (fun p =>
    match p.2.important_dates.lookup field with
    | some v => if v = "" then none else some (p.1, v)
    | none => none)

/-- Whether `detect_conflicts` reports a conflict for
`important_dates.<field>`: the registry for that key holds more than one
distinct `str(value).strip()` (modelled as `trim`) and the observations
come from at least two distinct documents (lines 189-200).  The other
categories of the merged output (`issue_id`, `id`, extra scalar fields)
are skipped by `detect_conflicts`: the first two by the explicit guard
list, the rest because they are neither dicts nor lists. -/
def detectScalarConflict (docs : List (String × DocEntryM))
    (field : String) : Bool :=
  let obs := fieldObservations docs field
  decide (1 < ((obs.map (fun o => pyStrip o.2)).dedup).length) &&
    decide (2 ≤ ((obs.map (fun o => o.1)).dedup).length)

end Evaluator

/-! ## Lemmas about the page-window selection loops -/

namespace ExtractionLogic

theorem fwdLoop_length (results : List Hit) (M : Nat) :
    ∀ (fuel : Nat) (acc : List Int) (cur : Int),
      (fwdLoop results M fuel acc cur).length ≤ acc.length + fuel := by
  intro fuel
  induction fuel with
  | zero => intro acc cur; simp [fwdLoop]
  | succ n ih =>
    intro acc cur
    simp only [fwdLoop]
    by_cases h : containsPage results cur ∧ acc.length < M
    · rw [if_pos h]
      calc (fwdLoop results M n (acc ++ [cur]) (cur + 1)).length
          ≤ (acc ++ [cur]).length + n := ih _ _
        _ = acc.length + (n + 1) := by simp; omega
    · rw [if_neg h]; omega

theorem bwdLoop_length (results : List Hit) (M : Nat) :
    ∀ (fuel : Nat) (acc : List Int) (cur : Int),
      (bwdLoop results M fuel acc cur).length ≤ acc.length + fuel := by
  intro fuel
  induction fuel with
  | zero => intro acc cur; simp [bwdLoop]
  | succ n ih =>
    intro acc cur
    simp only [bwdLoop]
    by_cases h : 0 < cur ∧ containsPage results cur ∧ acc.length < M
    · rw [if_pos h]
      calc (bwdLoop results M n (acc ++ [cur]) (cur - 1)).length
          ≤ (acc ++ [cur]).length + n := ih _ _
        _ = acc.length + (n + 1) := by simp; omega
    · rw [if_neg h]; omega

/-- With a cap large enough never to bind, the library forward loop is the
CLI forward loop. -/
theorem fwdLoop_eq_cli (results : List Hit) (M : Nat) :
    ∀ (fuel : Nat) (acc : List Int) (cur : Int),
      acc.length + fuel ≤ M →
      fwdLoop results M fuel acc cur = Cli.cliFwdLoop results fuel acc cur := by
  intro fuel
  induction fuel with
  | zero => intro acc cur _; simp [fwdLoop, Cli.cliFwdLoop]
  | succ n ih =>
    intro acc cur hM
    simp only [fwdLoop, Cli.cliFwdLoop]
    by_cases h : containsPage results cur
    · have hlen : acc.length < M := by omega
      rw [if_pos ⟨h, hlen⟩, if_pos h]
      exact ih (acc ++ [cur]) (cur + 1) (by simp; omega)
    · rw [if_neg (by tauto), if_neg h]

/-- With a cap large enough never to bind, the library backward loop is
the CLI backward loop. -/
theorem bwdLoop_eq_cli (results : List Hit) (M : Nat) :
    ∀ (fuel : Nat) (acc : List Int) (cur : Int),
      acc.length + fuel ≤ M →
      bwdLoop results M fuel acc cur = Cli.cliBwdLoop results fuel acc cur := by
  intro fuel
  induction fuel with
  | zero => intro acc cur _; simp [bwdLoop, Cli.cliBwdLoop]
  | succ n ih =>
    intro acc cur hM
    simp only [bwdLoop, Cli.cliBwdLoop]
    by_cases h : 0 < cur ∧ containsPage results cur
    · have hlen : acc.length < M := by omega
      rw [if_pos ⟨h.1, h.2, hlen⟩, if_pos h]
      exact ih (acc ++ [cur]) (cur - 1) (by simp; omega)
    · rw [if_neg (by tauto), if_neg h]

theorem cliFwdLoop_length (results : List Hit) :
    ∀ (fuel : Nat) (acc : List Int) (cur : Int),
      (Cli.cliFwdLoop results fuel acc cur).length ≤ acc.length + fuel := by
  intro fuel acc cur
  rw [← fwdLoop_eq_cli results (acc.length + fuel) fuel acc cur le_rfl]
  exact fwdLoop_length _ _ _ _ _

/-- Every page appended by the forward loop is at least the starting
page. -/
theorem fwdLoop_mem (results : List Hit) (M : Nat) :
    ∀ (fuel : Nat) (acc : List Int) (cur : Int) (p : Int),
      p ∈ fwdLoop results M fuel acc cur → p ∈ acc ∨ cur ≤ p := by
  intro fuel
  induction fuel with
  | zero => intro acc cur p hp; simp [fwdLoop] at hp; exact Or.inl hp
  | succ n ih =>
    intro acc cur p hp
    simp only [fwdLoop] at hp
    by_cases h : containsPage results cur ∧ acc.length < M
    · rw [if_pos h] at hp
      rcases ih (acc ++ [cur]) (cur + 1) p hp with hmem | hle
      · rcases List.mem_append.mp hmem with h1 | h2
        · exact Or.inl h1
        · simp at h2; omega
      · omega
    · rw [if_neg h] at hp; exact Or.inl hp

/-- Every page appended by the backward loop is positive and at most the
starting page. -/
theorem bwdLoop_mem (results : List Hit) (M : Nat) :
    ∀ (fuel : Nat) (acc : List Int) (cur : Int) (p : Int),
      p ∈ bwdLoop results M fuel acc cur → p ∈ acc ∨ (0 < p ∧ p ≤ cur) := by
  intro fuel
  induction fuel with
  | zero => intro acc cur p hp; simp [bwdLoop] at hp; exact Or.inl hp
  | succ n ih =>
    intro acc cur p hp
    simp only [bwdLoop] at hp
    by_cases h : 0 < cur ∧ containsPage results cur ∧ acc.length < M
    · rw [if_pos h] at hp
      rcases ih (acc ++ [cur]) (cur - 1) p hp with hmem | hrange
      · rcases List.mem_append.mp hmem with h1 | h2
        · exact Or.inl h1
        · simp at h2; omega
      · omega
    · rw [if_neg h] at hp; exact Or.inl hp

theorem mem_dedupPagesAux :
    ∀ (l seen : List Int) (p : Int), p ∈ dedupPagesAux l seen → p ∈ l := by
  intro l
  induction l with
  | nil => intro seen p hp; simp [dedupPagesAux] at hp
  | cons q rest ih =>
    intro seen p hp
    simp only [dedupPagesAux] at hp
    by_cases h : q ∈ seen
    · rw [if_pos h] at hp
      exact List.mem_cons_of_mem _ (ih seen p hp)
    · rw [if_neg h] at hp
      rcases List.mem_cons.mp hp with rfl | hp'
      · exact List.mem_cons_self _ _
      · exact List.mem_cons_of_mem _ (ih _ p hp')

theorem mem_sortPages (l : List Int) (p : Int) :
    p ∈ sortPages l ↔ p ∈ l :=
  List.mem_insertionSort _

/-- The number of hits on pages at least `cur + 1` never exceeds the
number of hits on pages at least `cur`. -/
theorem length_filter_page_succ_le (results : List Hit) (cur : Int) :
    (results.filter (fun r => decide (cur + 1 ≤ r.page_number))).length ≤
      (results.filter (fun r => decide (cur ≤ r.page_number))).length :=
  (List.monotone_filter_right results
    (fun r hr => by simp at hr ⊢; omega)).length_le

/-- When some hit sits exactly on page `cur`, strictly fewer hits lie on
pages at least `cur + 1` than on pages at least `cur`:  the measure that
certifies the forward-loop fuel. -/
theorem length_filter_page_succ_lt (results : List Hit) (cur : Int)
    (h : containsPage results cur = true) :
    (results.filter (fun r => decide (cur + 1 ≤ r.page_number))).length <
      (results.filter (fun r => decide (cur ≤ r.page_number))).length := by
  induction results with
  | nil => simp [containsPage] at h
  | cons r rest ih =>
    by_cases hr : r.page_number = cur
    · have h1 : (decide (cur + 1 ≤ r.page_number)) = false := by
        simp; omega
      have h2 : (decide (cur ≤ r.page_number)) = true := by simp; omega
      simp only [List.filter_cons, h1, h2, if_false, if_true]
      have := length_filter_page_succ_le rest cur
      simp
      omega
    · have hrest : containsPage rest cur = true := by
        have hbeq : (r.page_number == cur) = false := by simp [hr]
        simpa [containsPage, hbeq] using h
      have hlt := ih hrest
      simp only [List.filter_cons]
      by_cases hp : cur + 1 ≤ r.page_number
      · have h2 : cur ≤ r.page_number := by omega
        simp [hp, h2]
        omega
      · by_cases h2 : cur ≤ r.page_number
        · simp [hp, h2]; omega
        · simp [hp, h2]; omega

/-- Analogue of `length_filter_page_succ_lt` for the backward loop. -/
theorem length_filter_page_pred_lt (results : List Hit) (cur : Int)
    (h : containsPage results cur = true) :
    (results.filter (fun r => decide (r.page_number ≤ cur - 1))).length <
      (results.filter (fun r => decide (r.page_number ≤ cur))).length := by
  induction results with
  | nil => simp [containsPage] at h
  | cons r rest ih =>
    by_cases hr : r.page_number = cur
    · have h1 : (decide (r.page_number ≤ cur - 1)) = false := by
        simp; omega
      have h2 : (decide (r.page_number ≤ cur)) = true := by simp; omega
      simp only [List.filter_cons, h1, h2, if_false, if_true]
      have : (rest.filter (fun r => decide (r.page_number ≤ cur - 1))).length ≤
          (rest.filter (fun r => decide (r.page_number ≤ cur))).length :=
        (List.monotone_filter_right rest
          (fun a ha => by simp at ha ⊢; omega)).length_le
      simp
      omega
    · have hrest : containsPage rest cur = true := by
        have hbeq : (r.page_number == cur) = false := by simp [hr]
        simpa [containsPage, hbeq] using h
      have hlt := ih hrest
      simp only [List.filter_cons]
      by_cases hp : r.page_number ≤ cur - 1
      · have h2 : r.page_number ≤ cur := by omega
        simp [hp, h2]
        omega
      · by_cases h2 : r.page_number ≤ cur
        · simp [hp, h2]; omega
        · simp [hp, h2]; omega

/-- Any two fuels beyond the hit-count measure give the forward loop the
same result: the fuel `results.length + 1` used in `selectRest` never
binds. -/
theorem fwdLoop_fuel_irrelevant (results : List Hit) (M : Nat) :
    ∀ (fuel fuel' : Nat) (acc : List Int) (cur : Int),
      (results.filter (fun r => decide (cur ≤ r.page_number))).length < fuel →
      (results.filter (fun r => decide (cur ≤ r.page_number))).length < fuel' →
      fwdLoop results M fuel acc cur = fwdLoop results M fuel' acc cur := by
  intro fuel
  induction fuel with
  | zero => intro fuel' acc cur hm _; omega
  | succ n ih =>
    intro fuel' acc cur hm hm'
    match fuel' with
    | 0 => omega
    | m + 1 =>
      simp only [fwdLoop]
      by_cases h : containsPage results cur ∧ acc.length < M
      · rw [if_pos h, if_pos h]
        have hlt := length_filter_page_succ_lt results cur h.1
        have hle := length_filter_page_succ_le results cur
        exact ih m (acc ++ [cur]) (cur + 1) (by omega) (by omega)
      · rw [if_neg h, if_neg h]

/-- Analogue of `fwdLoop_fuel_irrelevant` for the backward loop. -/
theorem bwdLoop_fuel_irrelevant (results : List Hit) (M : Nat) :
    ∀ (fuel fuel' : Nat) (acc : List Int) (cur : Int),
      (results.filter (fun r => decide (r.page_number ≤ cur))).length < fuel →
      (results.filter (fun r => decide (r.page_number ≤ cur))).length < fuel' →
      bwdLoop results M fuel acc cur = bwdLoop results M fuel' acc cur := by
  intro fuel
  induction fuel with
  | zero => intro fuel' acc cur hm _; omega
  | succ n ih =>
    intro fuel' acc cur hm hm'
    match fuel' with
    | 0 => omega
    | m + 1 =>
      simp only [bwdLoop]
      by_cases h : 0 < cur ∧ containsPage results cur ∧ acc.length < M
      · rw [if_pos h, if_pos h]
        have hlt := length_filter_page_pred_lt results cur h.2.1
        have hle : ((results.filter
            (fun r => decide (r.page_number ≤ cur - 1))).length ≤
            (results.filter (fun r => decide (r.page_number ≤ cur))).length) :=
          (List.monotone_filter_right results
            (fun a ha => by simp at ha ⊢; omega)).length_le
        exact ih m (acc ++ [cur]) (cur - 1) (by omega) (by omega)
      · rw [if_neg h, if_neg h]

/-- Every page produced by the shared tail of the selection is positive
whenever the seeded pages are positive and the top hit's page is at
least 1. -/
theorem selectRest_mem_pos (results : List Hit) (M : Nat) (top : Hit)
    (pages : List Int) (hpages : ∀ q ∈ pages, 0 < q)
    (htop : 1 ≤ top.page_number) :
    ∀ p ∈ selectRest results M top pages, 0 < p := by
  intro p hp
  simp only [selectRest] at hp
  rw [mem_sortPages] at hp
  have hp5 := mem_dedupPagesAux _ _ _ hp
  rcases bwdLoop_mem results M _ _ _ _ hp5 with hp4 | hpos
  · rcases fwdLoop_mem results M _ _ _ _ hp4 with hp3 | hge
    · by_cases hc : pages.length < M
      · rw [if_pos hc] at hp3
        rcases List.mem_append.mp hp3 with hmem | hone
        · exact hpages p hmem
        · simp at hone; omega
      · rw [if_neg hc] at hp3
        exact hpages p hp3
    · omega
  · exact hpos.1

/-- With a cap large enough never to bind, the shared selection tail of
the library selector coincides with the CLI tail. -/
theorem selectRest_eq_cli (results : List Hit) (top : Hit)
    (pages : List Int) (hp : pages.length ≤ 2) :
    selectRest results (2 * results.length + 5) top pages =
      Cli.cliSelectRest results top pages := by
  have hcond : pages.length < 2 * results.length + 5 := by omega
  simp only [selectRest, Cli.cliSelectRest, if_pos hcond]
  rw [fwdLoop_eq_cli results (2 * results.length + 5) (results.length + 1)
    (pages ++ [top.page_number + 1]) (top.page_number + 1 + 1)
    (by simp; omega)]
  have hlen := cliFwdLoop_length results (results.length + 1)
    (pages ++ [top.page_number + 1]) (top.page_number + 1 + 1)
  rw [bwdLoop_eq_cli results (2 * results.length + 5) (results.length + 1)
    (Cli.cliFwdLoop results (results.length + 1)
      (pages ++ [top.page_number + 1]) (top.page_number + 1 + 1))
    (top.page_number - 1)
    (by simp at hlen; omega)]

/-- Fuel irrelevance transfers to the CLI forward loop through
`fwdLoop_eq_cli`. -/
theorem cliFwdLoop_fuel_irrelevant (results : List Hit) :
    ∀ (fuel fuel' : Nat) (acc : List Int) (cur : Int),
      (results.filter (fun r => decide (cur ≤ r.page_number))).length < fuel →
      (results.filter (fun r => decide (cur ≤ r.page_number))).length < fuel' →
      Cli.cliFwdLoop results fuel acc cur =
        Cli.cliFwdLoop results fuel' acc cur := by
  intro fuel fuel' acc cur hm hm'
  rw [← fwdLoop_eq_cli results (acc.length + max fuel fuel') fuel acc cur
      (by omega),
    ← fwdLoop_eq_cli results (acc.length + max fuel fuel') fuel' acc cur
      (by omega)]
  exact fwdLoop_fuel_irrelevant results _ fuel fuel' acc cur hm hm'

end ExtractionLogic

/-! ## Claim theorems about the page-window selector -/

open ExtractionLogic in
/-- C2: for the hit list with pages 5, 6, 7, 9 at distances 1.0, 1.02,
1.2, 1.3 and the 5 percent relative threshold, `select_consecutive_pages`
(with its default cap of 4) returns exactly the sorted window
`[5, 6, 7]`: page 5 as anchor, page 6 within the threshold and distinct,
the forward step adding page 7 (present among the hits) and stopping at
the absent page 8, backward expansion adding nothing, duplicates removed
by page number. -/
theorem select_consecutive_pages_scenario :
    select_consecutive_pages
        [⟨5, 1, ""⟩, ⟨6, 102 / 100, ""⟩, ⟨7, 12 / 10, ""⟩, ⟨9, 13 / 10, ""⟩]
        4 = [5, 6, 7] := by
  norm_num [select_consecutive_pages, selectRest, fwdLoop, bwdLoop,
    containsPage, dedupPages, dedupPagesAux, sortPages,
    List.insertionSort, List.orderedInsert]

open ExtractionLogic in
/-- C8: the page-window selector returns the empty window on an empty hit
list, and when every hit carries a page number of at least 1 the selected
window never contains page 0 or a negative page (the backward loop is
guarded by `current_page > 0`, in particular an anchor at page 1 produces
no backward page). -/
theorem select_pages_positive (results : List Hit) (maxPages : Nat)
    (h : results.all (fun r => decide (1 ≤ r.page_number)) = true) :
    select_consecutive_pages [] maxPages = [] ∧
      (select_consecutive_pages results maxPages).all
        (fun p => decide (0 < p)) = true := by
  refine ⟨rfl, ?_⟩
  rw [List.all_eq_true] at h ⊢
  intro p hp
  simp only [decide_eq_true_eq] at h ⊢
  match results with
  | [] => simp [select_consecutive_pages] at hp
  | [top] =>
    have htop : 1 ≤ top.page_number := h top (by simp)
    exact selectRest_mem_pos _ _ _ _
      (by intro q hq; simp at hq; omega) htop p hp
  | top :: second :: rest =>
    have htop : 1 ≤ top.page_number := h top (by simp)
    have hsec : 1 ≤ second.page_number := h second (by simp)
    simp only [select_consecutive_pages] at hp
    by_cases hc : ([top.page_number] : List Int).length < maxPages ∧
        second.distance ≤ top.distance * (105 / 100 : ℚ) ∧
        second.page_number ≠ top.page_number
    · rw [if_pos hc] at hp
      exact selectRest_mem_pos _ _ _ _
        (by intro q hq; simp at hq; rcases hq with rfl | rfl <;> omega)
        htop p hp
    · rw [if_neg hc] at hp
      exact selectRest_mem_pos _ _ _ _
        (by intro q hq; simp at hq; omega) htop p hp

/-- Witness for C8 at the concrete singleton hit list with anchor page
1. -/
theorem select_pages_positive_witness :
    ([⟨1, 1, ""⟩] : List Hit).all (fun r => decide (1 ≤ r.page_number)) =
        true ∧
      (ExtractionLogic.select_consecutive_pages [⟨1, 1, ""⟩] 4).all
        (fun p => decide (0 < p)) = true :=
  ⟨by decide, (select_pages_positive [⟨1, 1, ""⟩] 4 (by decide)).2⟩

open ExtractionLogic in
/-- C10 (counterexample): on five consecutive hit pages the CLI inline
selection, which has no cap, returns all five pages while
`select_consecutive_pages` with its default `max_pages = 4` returns only
three, so the two implementations are not equivalent as the claim
states. -/
theorem extract_command_pages_ne_select_default :
    Cli.extract_command_pages
        [⟨5, 1, ""⟩, ⟨6, 1, ""⟩, ⟨7, 11 / 10, ""⟩, ⟨8, 12 / 10, ""⟩,
          ⟨9, 13 / 10, ""⟩] ≠
      select_consecutive_pages
        [⟨5, 1, ""⟩, ⟨6, 1, ""⟩, ⟨7, 11 / 10, ""⟩, ⟨8, 12 / 10, ""⟩,
          ⟨9, 13 / 10, ""⟩] 4 := by
  norm_num [Cli.extract_command_pages, Cli.cliSelectRest, Cli.cliFwdLoop,
    Cli.cliBwdLoop, select_consecutive_pages, selectRest, fwdLoop, bwdLoop,
    containsPage, dedupPages, dedupPagesAux, sortPages,
    List.insertionSort, List.orderedInsert]
  decide

open ExtractionLogic in
/-- C10 (amended): the CLI inline page selection computes exactly
`select_consecutive_pages` run with a cap large enough never to bind
(`2 * |hits| + 5` suffices); the two algorithms otherwise agree step by
step, and differ only through the `max_pages` cap that the CLI copy
lacks. -/
theorem extract_command_pages_eq_select_uncapped (results : List Hit) :
    Cli.extract_command_pages results =
      select_consecutive_pages results (2 * results.length + 5) := by
  match results with
  | [] => rfl
  | [top] =>
    exact (selectRest_eq_cli [top] top [top.page_number] (by simp)).symm
  | top :: second :: rest =>
    simp only [Cli.extract_command_pages, select_consecutive_pages]
    have hone : ([top.page_number] : List Int).length <
        2 * (top :: second :: rest).length + 5 := by simp
    by_cases hc : second.distance ≤ top.distance * (105 / 100 : ℚ) ∧
        second.page_number ≠ top.page_number
    · rw [if_pos hc, if_pos ⟨hone, hc⟩]
      exact (selectRest_eq_cli _ top _ (by simp)).symm
    · rw [if_neg hc, if_neg (by tauto)]
      exact (selectRest_eq_cli _ top _ (by simp)).symm

/-! ## Lemmas and claims about the chunker -/

namespace PDFIndexer

/-- When `chunk_overlap >= chunk_size`, the chunking loop never advances
past a nonpositive `start_index` and therefore never terminates: it is
still running after any number of iterations. -/
theorem chunkTextLoop_stuck (size overlap : Nat) (tokens : List Nat)
    (hov : size ≤ overlap) (hne : 0 < tokens.length) :
    ∀ (fuel : Nat) (start : Int), start ≤ 0 →
      chunkTextLoop size overlap tokens fuel start = none := by
  have hlen : (0 : Int) < (tokens.length : Int) := by exact_mod_cast hne
  intro fuel
  induction fuel with
  | zero =>
    intro start hs
    simp only [chunkTextLoop]
    rw [if_pos (by omega)]
  | succ n ih =>
    intro start hs
    have hstep : ((size : Int) - (overlap : Int)) ≤ 0 := by
      have : (size : Int) ≤ (overlap : Int) := by exact_mod_cast hov
      omega
    simp only [chunkTextLoop]
    rw [if_pos (by omega), ih (start + ((size : Int) - (overlap : Int)))
      (by omega)]

/-- When `chunk_overlap < chunk_size`, the chunking loop terminates:
`len(tokens)` iterations always suffice because `start_index` advances by
at least one token per iteration. -/
theorem chunkTextLoop_terminates (size overlap : Nat) (tokens : List Nat)
    (hov : overlap < size) :
    ∀ (fuel : Nat) (start : Int), (tokens.length : Int) ≤ start + fuel →
      (chunkTextLoop size overlap tokens fuel start).isSome = true := by
  have hstep : (1 : Int) ≤ (size : Int) - (overlap : Int) := by
    have : (overlap : Int) < (size : Int) := by exact_mod_cast hov
    omega
  intro fuel
  induction fuel with
  | zero =>
    intro start hs
    simp only [chunkTextLoop]
    rw [if_neg (by omega)]
    rfl
  | succ n ih =>
    intro start hs
    simp only [chunkTextLoop]
    by_cases h : start < (tokens.length : Int)
    · rw [if_pos h]
      have hrec := ih (start + ((size : Int) - (overlap : Int))) (by omega)
      rcases hx : chunkTextLoop size overlap tokens n
          (start + ((size : Int) - (overlap : Int))) with _ | rest
      · rw [hx] at hrec; simp at hrec
      · rfl
    · rw [if_neg h]
      rfl

end PDFIndexer

/-- C4 (the code lacks the validation the claim asserts): nothing in the
code raises a `ConfigError` - no overlap/size validation exists anywhere
(src/pdf_indexer.py lines 81-97, src/config.py lines 16-17).  Instead,
for every configuration with `overlap_tokens >= max_tokens` and nonempty
token input, the chunking loop never terminates (`none` for every fuel),
while for `overlap_tokens < max_tokens` it terminates within
`len(tokens)` iterations, as the second half of the claim states. -/
theorem chunk_overlap_no_validation :
    (∀ (size overlap : Nat) (tokens : List Nat) (fuel : Nat),
        size ≤ overlap → 0 < tokens.length →
        PDFIndexer.chunkTextTokens size overlap tokens fuel = none) ∧
      ∀ (size overlap : Nat) (tokens : List Nat), overlap < size →
        (PDFIndexer.chunkTextTokens size overlap tokens
          tokens.length).isSome = true := by
  constructor
  · intro size overlap tokens fuel hov hne
    exact PDFIndexer.chunkTextLoop_stuck size overlap tokens hov hne fuel 0
      le_rfl
  · intro size overlap tokens hov
    exact PDFIndexer.chunkTextLoop_terminates size overlap tokens hov
      tokens.length 0 (by omega)

/-- Witness for C4: with `CHUNK_SIZE = CHUNK_OVERLAP = 2` on a one-token
text the loop is still running after 7 iterations, and with overlap 1
below size 2 chunking a two-token text terminates. -/
theorem chunk_overlap_no_validation_witness :
    (2 ≤ 2 ∧ 0 < ([0] : List Nat).length ∧
        PDFIndexer.chunkTextTokens 2 2 [0] 7 = none) ∧
      (1 < 2 ∧
        (PDFIndexer.chunkTextTokens 2 1 [0, 1]
          ([0, 1] : List Nat).length).isSome = true) :=
  ⟨⟨le_rfl, by decide,
    chunk_overlap_no_validation.1 2 2 [0] 7 le_rfl (by decide)⟩,
   ⟨by decide, chunk_overlap_no_validation.2 2 1 [0, 1] (by decide)⟩⟩

open ExtractionLogic in
/-- C5: the per-page artifact-extraction loop of `extract_from_pdf` is a
total function that silently skips every selected page outside
`1 .. page_count` - running it on the raw page window equals running it
on the window pre-filtered to the in-range pages, for every renderer and
text extractor. -/
theorem collectArtifacts_skips_out_of_range (pageCount : Int)
    (render : Int → String) (getText : Int → Option String)
    (pages : List Int) :
    collectArtifacts pageCount render getText pages =
      collectArtifacts pageCount render getText
        (pages.filter (fun p => decide (0 < p) && decide (p ≤ pageCount))) := by
  induction pages with
  | nil => rfl
  | cons p rest ih =>
    by_cases h : 0 < p ∧ p ≤ pageCount
    · rw [List.filter_cons_of_pos (by simp [h.1, h.2])]
      simp only [collectArtifacts, if_pos h, ih]
    · rw [List.filter_cons_of_neg
        (by rcases not_and_or.mp h with h1 | h1 <;> simp [h1])]
      simp only [collectArtifacts, if_neg h, ih]

/-! ## Lemmas and claims about the vector-index search -/

namespace PDFIndexer

instance : IsTotal (Nat × ℚ) scoreLe where
  total a b := by
    rcases lt_trichotomy a.2 b.2 with h | h | h
    · exact Or.inl (Or.inl h)
    · rcases Nat.le_total a.1 b.1 with hn | hn
      · exact Or.inl (Or.inr ⟨h, hn⟩)
      · exact Or.inr (Or.inr ⟨h.symm, hn⟩)
    · exact Or.inr (Or.inl h)

instance : IsTrans (Nat × ℚ) scoreLe where
  trans a b c hab hbc := by
    rcases hab with h1 | ⟨h1, h1'⟩ <;> rcases hbc with h2 | ⟨h2, h2'⟩
    · exact Or.inl (h1.trans h2)
    · exact Or.inl (h2 ▸ h1)
    · exact Or.inl (h1 ▸ h2)
    · exact Or.inr ⟨h1.trans h2, h1'.trans h2'⟩

theorem buildResults_length_le (metadata : List ChunkMeta) :
    ∀ (i : Nat) (s : List (Nat × ℚ)),
      (buildResults metadata i s).length ≤ s.length := by
  intro i s
  induction s generalizing i with
  | nil => simp [buildResults]
  | cons pr rest ih =>
    obtain ⟨idx, dist⟩ := pr
    simp only [buildResults]
    cases metadata.get? idx with
    | some m => simpa using ih (i + 1)
    | none => exact (ih (i + 1)).trans (by simp)

/-- Every formatted query result carries the distance of one of the raw
scored rows it was built from. -/
theorem mem_buildResults_dist (metadata : List ChunkMeta) :
    ∀ (i : Nat) (s : List (Nat × ℚ)) (q : QueryResult),
      q ∈ buildResults metadata i s → ∃ pr ∈ s, q.distance = pr.2 := by
  intro i s
  induction s generalizing i with
  | nil => intro q hq; simp [buildResults] at hq
  | cons pr rest ih =>
    obtain ⟨idx, dist⟩ := pr
    intro q hq
    simp only [buildResults] at hq
    cases hm : metadata.get? idx with
    | some m =>
      rw [hm] at hq
      rcases List.mem_cons.mp hq with rfl | hq'
      · exact ⟨(idx, dist), by simp⟩
      · obtain ⟨pr', hpr', hd⟩ := ih (i + 1) q hq'
        exact ⟨pr', List.mem_cons_of_mem _ hpr', hd⟩
    | none =>
      rw [hm] at hq
      obtain ⟨pr', hpr', hd⟩ := ih (i + 1) q hq
      exact ⟨pr', List.mem_cons_of_mem _ hpr', hd⟩

theorem buildResults_pairwise (metadata : List ChunkMeta) :
    ∀ (i : Nat) (s : List (Nat × ℚ)),
      s.Pairwise (fun a b => a.2 ≤ b.2) →
      (buildResults metadata i s).Pairwise
        (fun a b => a.distance ≤ b.distance) := by
  intro i s
  induction s generalizing i with
  | nil => intro _; simp [buildResults]
  | cons pr rest ih =>
    obtain ⟨idx, dist⟩ := pr
    intro hs
    rw [List.pairwise_cons] at hs
    simp only [buildResults]
    cases metadata.get? idx with
    | some m =>
      rw [List.pairwise_cons]
      refine ⟨?_, ih (i + 1) hs.2⟩
      intro q hq
      obtain ⟨pr', hpr', hd⟩ := mem_buildResults_dist metadata (i + 1) rest q hq
      simpa [hd] using hs.1 pr' hpr'
    | none => exact ih (i + 1) hs.2

end PDFIndexer

open PDFIndexer in
/-- C7: `PDFIndexer.query` on an empty index returns `[]` (and, being a
total function, never errors); it returns at most `min(top_k, ntotal)`
hits; the modelled FAISS scan is sorted by ascending L2 distance with
ties broken by the smaller (earlier-inserted) row id; and the formatted
hits `query` returns are non-decreasing in distance. -/
theorem query_search_contract (metadata : List ChunkMeta)
    (vectors : List Vec) (qv : Vec) (k : Nat) :
    query metadata [] qv k = [] ∧
      (query metadata vectors qv k).length ≤ min k vectors.length ∧
      List.Sorted scoreLe (faissSearch vectors qv (min k vectors.length)) ∧
      (query metadata vectors qv k).Pairwise
        (fun a b => a.distance ≤ b.distance) := by
  have hsorted : ∀ (k' : Nat),
      List.Sorted scoreLe (faissSearch vectors qv k') := by
    intro k'
    exact (List.sorted_insertionSort scoreLe _).take
  refine ⟨by simp [query], ?_, hsorted _, ?_⟩
  · by_cases h : vectors.length = 0
    · simp [query, h]
    · rw [query, if_neg h]
      calc (buildResults metadata 0
            (faissSearch vectors qv (min k vectors.length))).length
          ≤ (faissSearch vectors qv (min k vectors.length)).length :=
            buildResults_length_le _ _ _
        _ ≤ min k vectors.length := by
            simp [faissSearch, List.length_take]
  · by_cases h : vectors.length = 0
    · simp [query, h]
    · rw [query, if_neg h]
      refine buildResults_pairwise metadata 0 _ ?_
      refine (hsorted (min k vectors.length)).imp ?_
      intro a b hab
      rcases hab with h1 | ⟨h1, _⟩
      · exact le_of_lt h1
      · exact le_of_eq h1

/-! ## Claims about the investor amount formatting and deduplication -/

/-- C9: the investor amount post-formatting of the merger and of the CLI
is idempotent - on an entry whose amounts are already strings it is the
identity (the `isinstance` guards only fire on numbers), and applying it
twice always equals applying it once. -/
theorem format_amounts_idempotent :
    (∀ (inv : Merge.Investor) (s t : String),
        inv.amount_in_cash = Merge.AmountVal.strV s →
        inv.amount_in_percentage = Merge.AmountVal.strV t →
        Merge.formatInvestor inv = inv) ∧
      ∀ inv : Merge.Investor,
        Merge.formatInvestor (Merge.formatInvestor inv) =
          Merge.formatInvestor inv := by
  constructor
  · intro inv s t hc hp
    obtain ⟨n, c, p, l⟩ := inv
    simp only at hc hp
    subst hc
    subst hp
    rfl
  · intro inv
    obtain ⟨n, c, p, l⟩ := inv
    cases c <;> cases p <;> rfl

/-- Witness for C9: re-running the formatting on an entry whose cash
amount is already the 3-decimal string returns it unchanged. -/
theorem format_amounts_idempotent_witness :
    Merge.formatInvestor
        ⟨"Acme AB", Merge.AmountVal.strV "1000.000",
          Merge.AmountVal.strV "12.5", some 1⟩ =
      ⟨"Acme AB", Merge.AmountVal.strV "1000.000",
        Merge.AmountVal.strV "12.5", some 1⟩ :=
  format_amounts_idempotent.1 _ "1000.000" "12.5" rfl rfl

/-- C1 (counterexample): merging the claim's concrete investor list
produces three surviving entries, not two - the merger deduplicates on
the raw `(investor.name, investor.level)` pair (src/extraction_logic.py
line 289), so `"Acme AB"` and `"acme"` at level 1 are distinct keys even
though their normalised names coincide. -/
theorem mergeInvestors_dedup_raw_key_cex :
    Merge.mergeInvestors
        [⟨"Acme AB", Merge.AmountVal.numV 1000, Merge.AmountVal.nullV, some 1⟩,
         ⟨"acme", Merge.AmountVal.numV 1000, Merge.AmountVal.nullV, some 1⟩,
         ⟨"Acme AB", Merge.AmountVal.numV 500, Merge.AmountVal.nullV,
           some 2⟩] =
      [⟨"Acme AB", Merge.AmountVal.strV "1000.000", Merge.AmountVal.nullV,
          some 1⟩,
        ⟨"acme", Merge.AmountVal.strV "1000.000", Merge.AmountVal.nullV,
          some 1⟩,
        ⟨"Acme AB", Merge.AmountVal.strV "500.000", Merge.AmountVal.nullV,
          some 2⟩] ∧
      (Merge.mergeInvestors
          [⟨"Acme AB", Merge.AmountVal.numV 1000, Merge.AmountVal.nullV,
            some 1⟩,
          ⟨"acme", Merge.AmountVal.numV 1000, Merge.AmountVal.nullV, some 1⟩,
          ⟨"Acme AB", Merge.AmountVal.numV 500, Merge.AmountVal.nullV,
            some 2⟩]).length ≠ 2 := by
  constructor
  · decide
  · decide

namespace Merge

/-- The amount formatting never touches the identity key. -/
theorem formatInvestor_key (inv : Investor) :
    (formatInvestor inv).name = inv.name ∧
      (formatInvestor inv).level = inv.level := by
  obtain ⟨n, c, p, l⟩ := inv
  cases c <;> cases p <;> exact ⟨rfl, rfl⟩

/-- The keys of the deduplicated investor list are pairwise distinct and
avoid the incoming `seen_entries` set. -/
theorem mergeInvestorsAux_keys (items : List Investor) :
    ∀ seen : List (String × Option Int),
      (((mergeInvestorsAux items seen).map
        (fun i => (i.name, i.level))).Nodup) ∧
      ∀ k ∈ (mergeInvestorsAux items seen).map (fun i => (i.name, i.level)),
        k ∉ seen := by
  induction items with
  | nil => intro seen; simp [mergeInvestorsAux]
  | cons inv rest ih =>
    intro seen
    simp only [mergeInvestorsAux]
    by_cases h : inv.name ≠ "" ∧ (inv.name, inv.level) ∉ seen
    · rw [if_pos h]
      have ihs := ih ((inv.name, inv.level) :: seen)
      have hkey := formatInvestor_key inv
      constructor
      · simp only [List.map_cons, List.nodup_cons]
        refine ⟨?_, ihs.1⟩
        intro hmem
        rw [hkey.1, hkey.2] at hmem
        exact ihs.2 _ hmem (List.mem_cons_self _ _)
      · intro k hk
        simp only [List.map_cons] at hk
        rcases List.mem_cons.mp hk with hkk | hk'
        · rw [hkk, hkey.1, hkey.2]
          exact h.2
        · intro hks
          exact ihs.2 k hk' (List.mem_cons_of_mem _ hks)
    · rw [if_neg h]
      exact ih seen

/-- First-seen characterisation of the deduplication: looking up any key
in the merged list yields the formatted first entry among the
truthy-named inputs carrying that key, provided the key is not already in
`seen_entries`. -/
theorem mergeInvestorsAux_find (items : List Investor) :
    ∀ (seen : List (String × Option Int)) (k : String × Option Int),
      (mergeInvestorsAux items seen).find?
          (fun i => decide ((i.name, i.level) = k)) =
        if k ∈ seen then none
        else ((items.filter (fun i => !(i.name == ""))).find?
            (fun i => decide ((i.name, i.level) = k))).map formatInvestor := by
  induction items with
  | nil =>
    intro seen k
    by_cases hk : k ∈ seen <;> simp [mergeInvestorsAux, hk]
  | cons inv rest ih =>
    intro seen k
    by_cases hname : inv.name = ""
    · have hcond : ¬(inv.name ≠ "" ∧ (inv.name, inv.level) ∉ seen) := by
        tauto
      rw [mergeInvestorsAux, if_neg hcond]
      have hfc : List.filter (fun i => !(i.name == "")) (inv :: rest) =
          List.filter (fun i => !(i.name == "")) rest := by
        simp [List.filter_cons, hname]
      rw [hfc]
      exact ih seen k
    · have hfc : List.filter (fun i => !(i.name == "")) (inv :: rest) =
          inv :: List.filter (fun i => !(i.name == "")) rest := by
        simp [List.filter_cons, hname]
      by_cases hseen : (inv.name, inv.level) ∈ seen
      · have hcond : ¬(inv.name ≠ "" ∧ (inv.name, inv.level) ∉ seen) := by
          tauto
        rw [mergeInvestorsAux, if_neg hcond, hfc]
        by_cases hk : k ∈ seen
        · rw [ih seen k, if_pos hk, if_pos hk]
        · have hne : (inv.name, inv.level) ≠ k := fun hkk => hk (hkk ▸ hseen)
          have hfind : List.find? (fun i => decide ((i.name, i.level) = k))
              (inv :: List.filter (fun i => !(i.name == "")) rest) =
                List.find? (fun i => decide ((i.name, i.level) = k))
                  (List.filter (fun i => !(i.name == "")) rest) := by
            simp [List.find?_cons, hne]
          rw [hfind, ih seen k, if_neg hk]
      · have hcond : inv.name ≠ "" ∧ (inv.name, inv.level) ∉ seen :=
          ⟨hname, hseen⟩
        rw [mergeInvestorsAux, if_pos hcond, hfc]
        have hkey := formatInvestor_key inv
        by_cases hkk : (inv.name, inv.level) = k
        · have hk : k ∉ seen := hkk ▸ hseen
          rw [if_neg hk]
          have h1 : List.find? (fun i => decide ((i.name, i.level) = k))
              (formatInvestor inv ::
                mergeInvestorsAux rest ((inv.name, inv.level) :: seen)) =
                some (formatInvestor inv) := by
            simp [List.find?_cons, hkey.1, hkey.2, hkk]
          have h2 : List.find? (fun i => decide ((i.name, i.level) = k))
              (inv :: List.filter (fun i => !(i.name == "")) rest) =
                some inv := by
            simp [List.find?_cons, hkk]
          rw [h1, h2]
          rfl
        · have h1 : List.find? (fun i => decide ((i.name, i.level) = k))
              (formatInvestor inv ::
                mergeInvestorsAux rest ((inv.name, inv.level) :: seen)) =
                List.find? (fun i => decide ((i.name, i.level) = k))
                  (mergeInvestorsAux rest ((inv.name, inv.level) :: seen)) := by
            simp [List.find?_cons, hkey.1, hkey.2, hkk]
          have h2 : List.find? (fun i => decide ((i.name, i.level) = k))
              (inv :: List.filter (fun i => !(i.name == "")) rest) =
                List.find? (fun i => decide ((i.name, i.level) = k))
                  (List.filter (fun i => !(i.name == "")) rest) := by
            simp [List.find?_cons, hkk]
          rw [h1, h2, ih ((inv.name, inv.level) :: seen) k]
          by_cases hk : k ∈ seen
          · rw [if_pos (List.mem_cons_of_mem _ hk), if_pos hk]
          · have hk' : k ∉ (inv.name, inv.level) :: seen := by
              intro hmem
              rcases List.mem_cons.mp hmem with h1 | h1
              · exact hkk h1.symm
              · exact hk h1
            rw [if_neg hk', if_neg hk]

end Merge

/-- C1 (amended): the merger deduplicates investors by the raw
`(investor.name, investor.level)` pair - not by normalised name - keeping
the first-seen entry per raw key with its amounts formatted: the merged
list has pairwise-distinct raw keys, and looking any key up in it yields
exactly the formatted first truthy-named input entry with that key (so
the claim's concrete list keeps three entries, one per distinct raw key,
as the counterexample shows). -/
theorem mergeInvestors_first_seen_raw_key :
    (∀ items : List Merge.Investor,
        ((Merge.mergeInvestors items).map
          (fun i => (i.name, i.level))).Nodup) ∧
      ∀ (items : List Merge.Investor) (k : String × Option Int),
        (Merge.mergeInvestors items).find?
            (fun i => decide ((i.name, i.level) = k)) =
          ((items.filter (fun i => !(i.name == ""))).find?
              (fun i => decide ((i.name, i.level) = k))).map
            Merge.formatInvestor := by
  constructor
  · intro items
    exact (Merge.mergeInvestorsAux_keys items []).1
  · intro items k
    simpa [Merge.mergeInvestors] using Merge.mergeInvestorsAux_find items [] k

/-! ## Claim about scalar-field conflict reporting -/

/-- C3: when two extraction records for the same event report distinct
non-empty values for the same scalar field (here `record_date`), the
merge keeps both values - one per contributing document, no
last-write-wins overwrite - and `detect_conflicts` run on the merged
output reports a conflict for `important_dates.record_date` (the
repository's concrete form of the spec's `ConflictWarning`). -/
theorem merge_scalar_conflict_reported (issue dA dB vA vB : String)
    (idA idB : Option String) (hd : dA ≠ dB) (hdA : dA ≠ "")
    (hdB : dB ≠ "") (hvA : vA ≠ "") (hvB : vB ≠ "")
    (hv : Evaluator.pyStrip vA ≠ Evaluator.pyStrip vB) :
    Merge.mergeScalarField issue "record_date"
        [⟨some dA, idA, some vA⟩, ⟨some dB, idB, some vB⟩] [] =
      [(dA, ⟨issue, idA, [("record_date", vA)], []⟩),
        (dB, ⟨issue, idB, [("record_date", vB)], []⟩)] ∧
      Evaluator.detectScalarConflict
        (Merge.mergeScalarField issue "record_date"
          [⟨some dA, idA, some vA⟩, ⟨some dB, idB, some vB⟩] [])
        "record_date" = true := by
  have hba : (dB == dA) = false := by
    simp [beq_eq_false_iff_ne]
    exact fun h => hd h.symm
  have hmerged : Merge.mergeScalarField issue "record_date"
      [⟨some dA, idA, some vA⟩, ⟨some dB, idB, some vB⟩] [] =
        [(dA, ⟨issue, idA, [("record_date", vA)], []⟩),
          (dB, ⟨issue, idB, [("record_date", vB)], []⟩)] := by
    simp [Merge.mergeScalarField, Merge.mergeScalarStep, hdA, hdB, hba,
      Merge.updateAssoc, Merge.setAssoc, List.lookup, and_not_self_iff,
      Merge.importantDatesFields, hd]
  refine ⟨hmerged, ?_⟩
  rw [hmerged]
  simp [Evaluator.detectScalarConflict, Evaluator.fieldObservations,
    List.lookup, hvA, hvB, List.dedup_cons_of_not_mem, hv, hd]

/-- Witness for C3 at the claim's concrete scenario: documents A and B
reporting `record_date` 2024-01-10 and 2024-01-12. -/
theorem merge_scalar_conflict_reported_witness :
    ("docA.pdf" : String) ≠ "docB.pdf" ∧
      Evaluator.pyStrip "2024-01-10" ≠ Evaluator.pyStrip "2024-01-12" ∧
      Evaluator.detectScalarConflict
        (Merge.mergeScalarField "issue1" "record_date"
          [⟨some "docA.pdf", some "d1", some "2024-01-10"⟩,
            ⟨some "docB.pdf", some "d2", some "2024-01-12"⟩] [])
        "record_date" = true :=
  ⟨by decide, by decide,
    (merge_scalar_conflict_reported "issue1" "docA.pdf" "docB.pdf"
      "2024-01-10" "2024-01-12" (some "d1") (some "d2") (by decide)
      (by decide) (by decide) (by decide) (by decide) (by decide)).2⟩

/-! ## Lemmas and claims about the index build -/

namespace PDFIndexer

/-- When some batch's embedding call fails, the embedding loop of
`index_pdf` returns `none` together with the incoming metadata extended
by exactly the batches that succeeded before the first failure. -/
theorem indexBatchLoop_fail (f : List String → Option (List Vec)) :
    ∀ (batches : List (List ChunkMeta)) (embs : List Vec)
      (meta : List ChunkMeta),
      (∃ b ∈ batches, f (b.map (fun c => c.text)) = none) →
      indexBatchLoop f batches embs meta =
        (none, meta ++ (batches.takeWhile
          (fun b => (f (b.map (fun c => c.text))).isSome)).flatten) := by
  intro batches
  induction batches with
  | nil => intro embs meta h; simp at h
  | cons b rest ih =>
    intro embs meta h
    cases hf : f (b.map (fun c => c.text)) with
    | none =>
      have hb : ((f (b.map (fun c => c.text))).isSome) = false := by
        simp [hf]
      simp [indexBatchLoop, hf, List.takeWhile_cons, hb]
    | some bembs =>
      have hrest : ∃ b' ∈ rest, f (b'.map (fun c => c.text)) = none := by
        rcases h with ⟨b', hb', hfb'⟩
        rcases List.mem_cons.mp hb' with rfl | hb''
        · rw [hf] at hfb'
          exact absurd hfb' (by simp)
        · exact ⟨b', hb'', hfb'⟩
      have hb : ((f (b.map (fun c => c.text))).isSome) = true := by
        simp [hf]
      simp only [indexBatchLoop, hf]
      rw [ih (embs ++ bembs) (meta ++ b) hrest]
      simp [List.takeWhile_cons, hb]

end PDFIndexer

open PDFIndexer in
/-- C6 (amended): when a batched embedding call fails, `index_pdf` aborts
returning 0 without adding any vector to the in-memory FAISS index and
without writing anything to disk; but relative to the state at the start
of the embedding loop (a nonempty pre-existing index has already been
cleared, files included, by the re-indexing reset) the in-memory chunk
metadata is NOT rolled back: it keeps the chunks of the batches that
succeeded before the failure. -/
theorem indexPdf_abort_on_batch_failure (st : IndexState)
    (cd : List ChunkMeta) (f : List String → Option (List Vec)) (bs : Nat)
    (hfail : ∃ b ∈ chunkBatches bs cd, f (b.map (fun c => c.text)) = none) :
    (indexPdf st cd f bs).2 = 0 ∧
      (indexPdf st cd f bs).1.vectors =
        (if 0 < st.vectors.length then resetIndex st else st).vectors ∧
      (indexPdf st cd f bs).1.disk =
        (if 0 < st.vectors.length then resetIndex st else st).disk ∧
      (indexPdf st cd f bs).1.metadata =
        (if 0 < st.vectors.length then resetIndex st else st).metadata ++
          ((chunkBatches bs cd).takeWhile
            (fun b => (f (b.map (fun c => c.text))).isSome)).flatten := by
  have hloop := indexBatchLoop_fail f (chunkBatches bs cd) []
    (if 0 < st.vectors.length then resetIndex st else st).metadata hfail
  simp only [indexPdf, hloop]
  simp

open PDFIndexer in
/-- C6 (counterexample): starting from the empty index state, indexing
two one-chunk batches whose second embedding call fails leaves the chunk
metadata of the first, successful batch committed in memory - the state
is not "left as it was before the build started" as the claim asserts
(the vector store and the disk are indeed untouched, but the metadata is
not). -/
theorem indexPdf_partial_metadata_cex :
    (fun ts => if ts = ["t2"] then none
      else some [[(1 : ℚ)]]) ["t2"] = none ∧
      (indexPdf ⟨[], [], none⟩
          [⟨"doc.pdf", "/p/doc.pdf", 1, 1, "t1"⟩,
            ⟨"doc.pdf", "/p/doc.pdf", 1, 2, "t2"⟩]
          (fun ts => if ts = ["t2"] then none else some [[(1 : ℚ)]])
          1).1.metadata ≠
        (⟨[], [], none⟩ : IndexState).metadata := by
  constructor
  · decide
  · decide

open PDFIndexer in
/-- Witness for C6 (amended) at the counterexample's concrete build:
the aborted build returns 0, leaves vectors and disk untouched, and keeps
exactly the first batch's chunk in metadata. -/
theorem indexPdf_abort_on_batch_failure_witness :
    (indexPdf ⟨[], [], none⟩
        [⟨"doc.pdf", "/p/doc.pdf", 1, 1, "t1"⟩,
          ⟨"doc.pdf", "/p/doc.pdf", 1, 2, "t2"⟩]
        (fun ts => if ts = ["t2"] then none else some [[(1 : ℚ)]])
        1).2 = 0 ∧
      (indexPdf ⟨[], [], none⟩
          [⟨"doc.pdf", "/p/doc.pdf", 1, 1, "t1"⟩,
            ⟨"doc.pdf", "/p/doc.pdf", 1, 2, "t2"⟩]
          (fun ts => if ts = ["t2"] then none else some [[(1 : ℚ)]])
          1).1.metadata =
        [⟨"doc.pdf", "/p/doc.pdf", 1, 1, "t1"⟩] := by
  have h := indexPdf_abort_on_batch_failure ⟨[], [], none⟩
    [⟨"doc.pdf", "/p/doc.pdf", 1, 1, "t1"⟩,
      ⟨"doc.pdf", "/p/doc.pdf", 1, 2, "t2"⟩]
    (fun ts => if ts = ["t2"] then none else some [[(1 : ℚ)]]) 1
    ⟨[⟨"doc.pdf", "/p/doc.pdf", 1, 2, "t2"⟩], by decide, by decide⟩
  refine ⟨h.1, ?_⟩
  rw [h.2.2.2]
  decide

end FinanceLab
